import Mathlib

/-!
# tessbridge (gosseract v2): result extraction and the growable record buffer

A shallow embedding of `tessbridge.cpp` / `tessbridge.h`:

* `GetBoundingBoxesVerbose` — the word-by-word walk with the four hierarchical counters,
* `GetBoundingBoxes` — the single-level `do … while (ri->Next(level))` walk,
* the `malloc` / `realloc` growth step both loops share,
* `SetPixImage` — the minimum-resolution correction.

The recognition engine is an external library.  Its result iterator is represented by the
finite sequence of positions a traversal stops at, each position carrying the answers the
engine gives to the queries the bridge makes there.  `int` variables are unbounded integers
(signed overflow is undefined behaviour in C++ and is reached only beyond 2^31 - 1 records).
-/

namespace Tessbridge

/-! ## Data model -/

/-- The `int` codes of `tesseract::PageIteratorLevel`; `GetBoundingBoxes` receives the code
as an `int` and casts it. -/
abbrev PageIteratorLevel := Int

abbrev RIL_BLOCK : PageIteratorLevel := 0

abbrev RIL_PARA : PageIteratorLevel := 1

abbrev RIL_TEXTLINE : PageIteratorLevel := 2

abbrev RIL_WORD : PageIteratorLevel := 3

abbrev RIL_SYMBOL : PageIteratorLevel := 4

/-- The record `struct bounding_box` of `tessbridge.h`.  `word` is a `char*` (possibly NULL);
`confidence` is a `float` that the bridge only copies, kept here as its bit pattern. -/
structure bounding_box where
  x1 : Int
  y1 : Int
  x2 : Int
  y2 : Int
  word : Option String
  confidence : Nat
  block_num : Int
  par_num : Int
  line_num : Int
  word_num : Int
deriving DecidableEq, Repr

/-- The record `struct bounding_boxes` of `tessbridge.h`: a length and a pointer to the cells.
The storage behind the pointer is a map from cell index to cell content. -/
structure bounding_boxes where
  length : Nat
  boxes : Nat → bounding_box

/-- What the engine's iterator answers while it stands at one position:
`Empty(level)`, `IsAtBeginningOf(level)`, `GetUTF8Text(level)`, `Confidence(level)` and the
four coordinates `BoundingBox(level, &x1, &y1, &x2, &y2)` stores.  `Empty(RIL_BLOCK)` is the
end-of-traversal test: it is false at every position of a traversal, so a position is only
asked about the finer levels. -/
structure Position where
  Empty : PageIteratorLevel → Bool
  IsAtBeginningOf : PageIteratorLevel → Bool
  GetUTF8Text : PageIteratorLevel → Option String
  Confidence : PageIteratorLevel → Nat
  BoundingBox : PageIteratorLevel → Int × Int × Int × Int

/-- The iterator returned by `api->GetIterator()` after `api->Recognize(NULL)`.
`stops` lists the positions the iterator stands at, the current one first, under repeated
`Next` at the level the caller advances with; `Empty(RIL_BLOCK)` holds exactly when `stops`
is used up, and `Next` answers whether a position is left.  `exhausted` is what the text,
confidence and box queries give once the iterator is past its last block. -/
structure ResultIterator where
  stops : List Position
  exhausted : Position

/-- The four local counters `block_num`, `par_num`, `line_num`, `word_num`. -/
structure Counters where
  block_num : Int
  par_num : Int
  line_num : Int
  word_num : Int
deriving DecidableEq, Repr

/-- The locals that manage the buffer: `box_array`, `realloc_threshold`, `capacity`. -/
structure Buffer where
  box_array : bounding_boxes
  realloc_threshold : Nat
  capacity : Nat

/-- The locals of `GetBoundingBoxesVerbose` that change in its loop. -/
structure VerboseState where
  buf : Buffer
  cnt : Counters

/-! ## The record buffer -/

/-- The constant `int realloc_raise = 1000`. -/
def realloc_raise : Nat := 1000

/-- Storage from `malloc(capacity * sizeof(bounding_box))`: uninitialised, cell `i` holds
whatever the allocator hands out, given by `heap i`. -/
def malloc (heap : Nat → bounding_box) (_capacity : Nat) : Nat → bounding_box :=
  heap

/-- Storage from `realloc`: the cells of the old block are kept up to the smaller of the two
sizes; the cells beyond it are uninitialised. -/
def realloc (heap : Nat → bounding_box) (boxes : Nat → bounding_box)
    (old_capacity new_capacity : Nat) : Nat → bounding_box :=
  fun i => if i < min old_capacity new_capacity then boxes i else heap i

/-- The state both functions set up before their loop (lines 114-118 and 178-182). -/
def initBuffer (heap : Nat → bounding_box) : Buffer :=
  { box_array := { length := 0, boxes := malloc heap 1000 },
    realloc_threshold := 900,
    capacity := 1000 }

/-- The growth step `if (box_array->length >= realloc_threshold) { … }`
(lines 149-153 and 189-193). -/
def grow (heap : Nat → bounding_box) (b : Buffer) : Buffer :=
  if b.box_array.length ≥ b.realloc_threshold then
    let capacity := b.capacity + realloc_raise
    { box_array :=
        { b.box_array with boxes := realloc heap b.box_array.boxes b.capacity capacity },
      realloc_threshold := b.realloc_threshold + realloc_raise,
      capacity := capacity }
  else b

/-- The writes to `box_array->boxes[box_array->length]` followed by `box_array->length++`.
`f` gives the cell after the field assignments from the cell before them.  A write at an index
outside the allocated `capacity` cells is an out-of-bounds store: the result is `none`. -/
def writeRecord (b : Buffer) (f : bounding_box → bounding_box) : Option Buffer :=
  let n := b.box_array.length
  if n < b.capacity then
    some { b with
      box_array :=
        { length := n + 1,
          boxes := fun i => if i = n then f (b.box_array.boxes n) else b.box_array.boxes i } }
  else none

/-- The loop-head relation between the three buffer locals. -/
def Buffer.ok (b : Buffer) : Prop :=
  b.realloc_threshold + 100 = b.capacity ∧ b.box_array.length ≤ b.realloc_threshold

instance (b : Buffer) : Decidable b.ok := by
  unfold Buffer.ok
  infer_instance

/-- The records a caller reads back: cells `0 … length - 1`. -/
def bounding_boxes.records (r : bounding_boxes) : List bounding_box :=
  (List.range r.length).map r.boxes

/-! ## Verbose extraction -/

/-- Lines 131-147: the three `IsAtBeginningOf` tests in sequence, then `word_num++`. -/
def advance (p : Position) (c : Counters) : Counters :=
  let c1 : Counters :=
    if p.IsAtBeginningOf RIL_BLOCK then
      { block_num := c.block_num + 1, par_num := 0, line_num := 0, word_num := 0 }
    else c
  let c2 : Counters :=
    if p.IsAtBeginningOf RIL_PARA then
      { c1 with par_num := c1.par_num + 1, line_num := 0, word_num := 0 }
    else c1
  let c3 : Counters :=
    if p.IsAtBeginningOf RIL_TEXTLINE then
      { c2 with line_num := c2.line_num + 1, word_num := 0 }
    else c2
  { c3 with word_num := c3.word_num + 1 }

/-- Lines 155-164: every field of the cell is assigned. -/
def verboseCell (p : Position) (c : Counters) : bounding_box :=
  { x1 := (p.BoundingBox RIL_WORD).1,
    y1 := (p.BoundingBox RIL_WORD).2.1,
    x2 := (p.BoundingBox RIL_WORD).2.2.1,
    y2 := (p.BoundingBox RIL_WORD).2.2.2,
    word := p.GetUTF8Text RIL_WORD,
    confidence := p.Confidence RIL_WORD,
    block_num := c.block_num,
    par_num := c.par_num,
    line_num := c.line_num,
    word_num := c.word_num }

/-- One pass through the body of the `while` loop (lines 127-167) at position `p`. -/
def verboseBody (heap : Nat → bounding_box) (p : Position) (s : VerboseState) :
    Option VerboseState :=
  if p.Empty RIL_WORD then
    some s
  else
    let cnt := advance p s.cnt
    match writeRecord (grow heap s.buf) (fun _ => verboseCell p cnt) with
    | none => none
    | some buf => some { buf := buf, cnt := cnt }

/-- The loop `while (!res_it->Empty(RIL_BLOCK)) { … res_it->Next(RIL_WORD); }`. -/
def verboseLoop (heap : Nat → bounding_box) : List Position → VerboseState → Option VerboseState
  | [], s => some s
  | p :: ps, s =>
    match verboseBody heap p s with
    | none => none
    | some s1 => verboseLoop heap ps s1

/-- The counters as declared in lines 120-123: all four start at 0. -/
def startCounters : Counters :=
  { block_num := 0, par_num := 0, line_num := 0, word_num := 0 }

/-- The state before the loop of `GetBoundingBoxesVerbose` (lines 114-123). -/
def verboseInit (heap : Nat → bounding_box) : VerboseState :=
  { buf := initBuffer heap, cnt := startCounters }

/-- The function `GetBoundingBoxesVerbose`.  The iterator is dereferenced without a null
test, so the function is given an iterator. -/
def GetBoundingBoxesVerbose (heap : Nat → bounding_box) (res_it : ResultIterator) :
    Option bounding_boxes :=
  (verboseLoop heap res_it.stops (verboseInit heap)).map (fun s => s.buf.box_array)

/-! ## Simple extraction -/

/-- Lines 194-197: `word`, `confidence` and the four coordinates are assigned; the four
number fields are not touched. -/
def simpleCell (level : PageIteratorLevel) (p : Position) (old : bounding_box) : bounding_box :=
  { old with
    x1 := (p.BoundingBox level).1,
    y1 := (p.BoundingBox level).2.1,
    x2 := (p.BoundingBox level).2.2.1,
    y2 := (p.BoundingBox level).2.2.2,
    word := p.GetUTF8Text level,
    confidence := p.Confidence level }

/-- One pass through the body of the `do … while` loop (lines 189-198). -/
def simpleBody (heap : Nat → bounding_box) (level : PageIteratorLevel) (p : Position)
    (b : Buffer) : Option Buffer :=
  writeRecord (grow heap b) (simpleCell level p)

/-- The loop `do { … } while (ri->Next(level));` with the iterator standing at `cur` and the
positions `ahead` still to come: the body runs first, then `Next` decides. -/
def doWhile (heap : Nat → bounding_box) (level : PageIteratorLevel) :
    Position → List Position → Buffer → Option Buffer
  | cur, [], b => simpleBody heap level cur b
  | cur, q :: qs, b =>
    match simpleBody heap level cur b with
    | none => none
    | some b1 => doWhile heap level q qs b1

/-- The positions the `do … while` loop runs its body at: every stop, or, when the iterator
is used up from the start, the single past-the-end position. -/
def ResultIterator.visited (ri : ResultIterator) : List Position :=
  match ri.stops with
  | [] => [ri.exhausted]
  | p :: ps => p :: ps

/-- The function `GetBoundingBoxes`; `ri = none` is the null iterator of `if (ri != 0)`. -/
def GetBoundingBoxes (heap : Nat → bounding_box) (ri : Option ResultIterator)
    (pageIteratorLevel : Int) : Option bounding_boxes :=
  let level : PageIteratorLevel := pageIteratorLevel
  match ri with
  | none => some (initBuffer heap).box_array
  | some it =>
    match it.stops with
    | [] => (doWhile heap level it.exhausted [] (initBuffer heap)).map (fun b => b.box_array)
    | p :: ps => (doWhile heap level p ps (initBuffer heap)).map (fun b => b.box_array)

/-! ## Reference sequences used to state the results -/

/-- The positions that are not empty at word granularity, in traversal order. -/
def nonEmptyWord (ps : List Position) : List Position :=
  ps.filter (fun p => !p.Empty RIL_WORD)

/-- The records the verbose loop body assembles, in order, starting from counters `c`:
the values handed to the buffer, with no buffer involved. -/
def verboseWritten : Counters → List Position → List bounding_box
  | _, [] => []
  | c, p :: ps =>
    if p.Empty RIL_WORD then verboseWritten c ps
    else verboseCell p (advance p c) :: verboseWritten (advance p c) ps

/-- The four number fields of a record. -/
def bounding_box.numbers (b : bounding_box) : Counters :=
  { block_num := b.block_num, par_num := b.par_num, line_num := b.line_num,
    word_num := b.word_num }

/-- The iterator itself cascades the beginning of a block: where it reports the beginning of
a block it also reports the beginning of a paragraph and of a line. -/
def Position.cascades (p : Position) : Prop :=
  p.IsAtBeginningOf RIL_BLOCK = true →
    p.IsAtBeginningOf RIL_PARA = true ∧ p.IsAtBeginningOf RIL_TEXTLINE = true

/-- The begin flags are nested: the beginning of a block is the beginning of a paragraph and
of a line, and the beginning of a paragraph is the beginning of a line. -/
def Position.nested (p : Position) : Prop :=
  p.cascades ∧ (p.IsAtBeginningOf RIL_PARA = true → p.IsAtBeginningOf RIL_TEXTLINE = true)

/-! ## Image attach -/

/-- The decoded image: of a leptonica `Pix` only the resolution fields matter here. -/
structure Pix where
  xres : Int
  yres : Int
deriving DecidableEq, Repr

/-- The engine session, as far as `SetPixImage` uses it: the attached image and the source
resolution the engine keeps for it.  The engine keeps one number, the vertical resolution: it
is what `GetSourceYResolution` reads and what `SetSourceResolution` overwrites. -/
structure TessBaseAPI where
  image : Option Pix
  source_resolution : Int
deriving DecidableEq, Repr

/-- The engine call `api->SetImage(image)`: the session takes the image and its vertical
resolution as source resolution. -/
def TessBaseAPI.SetImage (api : TessBaseAPI) (image : Pix) : TessBaseAPI :=
  { api with image := some image, source_resolution := image.yres }

/-- The engine call `api->GetSourceYResolution()`. -/
def TessBaseAPI.GetSourceYResolution (api : TessBaseAPI) : Int :=
  api.source_resolution

/-- The engine call `api->SetSourceResolution(ppi)`. -/
def TessBaseAPI.SetSourceResolution (api : TessBaseAPI) (ppi : Int) : TessBaseAPI :=
  { api with source_resolution := ppi }

/-- The function `SetPixImage` (lines 78-85). -/
def SetPixImage (a : TessBaseAPI) (pix : Pix) : TessBaseAPI :=
  let api := a.SetImage pix
  if api.GetSourceYResolution < 70 then api.SetSourceResolution 70 else api

/-! ## Concrete iterators and storage used in the examples -/

/-- A word position: not empty, with the given three begin flags (block, paragraph, line). -/
def wordAt (b p l : Bool) (text : String) : Position :=
  { Empty := fun _ => false,
    IsAtBeginningOf := fun lv => if lv = RIL_BLOCK then b else if lv = RIL_PARA then p
      else if lv = RIL_TEXTLINE then l else true,
    GetUTF8Text := fun _ => some text,
    Confidence := fun _ => 90,
    BoundingBox := fun _ => (1, 2, 3, 4) }

/-- A position with no word (an image block): empty below block level, and reported as the
beginning of everything. -/
def imageBlock : Position :=
  { Empty := fun lv => decide (lv ≠ RIL_BLOCK),
    IsAtBeginningOf := fun _ => true,
    GetUTF8Text := fun _ => none,
    Confidence := fun _ => 0,
    BoundingBox := fun _ => (0, 0, 0, 0) }

/-- What the queries give past the last block: no text, confidence 0. -/
def pastEnd : Position :=
  { Empty := fun _ => true,
    IsAtBeginningOf := fun _ => false,
    GetUTF8Text := fun _ => none,
    Confidence := fun _ => 0,
    BoundingBox := fun _ => (0, 0, 0, 0) }

/-- Zero-filled storage. -/
def zeroHeap : Nat → bounding_box :=
  fun _ => { x1 := 0, y1 := 0, x2 := 0, y2 := 0, word := none, confidence := 0,
             block_num := 0, par_num := 0, line_num := 0, word_num := 0 }

/-- Recycled storage: cell `i` still holds the number `i + 5` in its four number fields. -/
def usedHeap : Nat → bounding_box :=
  fun i => { x1 := 0, y1 := 0, x2 := 0, y2 := 0, word := none, confidence := 0,
             block_num := i + 5, par_num := i + 5, line_num := i + 5, word_num := i + 5 }


/-! ## The growth step and the write -/

/-- Unwritten cells still hold what the allocator handed out. -/
theorem initBuffer_ok (heap : Nat → bounding_box) :
    (initBuffer heap).ok ∧
      ∀ i, (initBuffer heap).box_array.length ≤ i → (initBuffer heap).box_array.boxes i = heap i := by
  refine ⟨?_, ?_⟩
  · simp [Buffer.ok, initBuffer]
  · intro i _
    simp [initBuffer, malloc]

/-- After the growth step there is room for the write, and no cell below the old capacity
has changed. -/
theorem grow_spec (heap : Nat → bounding_box) (b : Buffer) (hok : b.ok) :
    (grow heap b).box_array.length = b.box_array.length ∧
      (grow heap b).realloc_threshold + 100 = (grow heap b).capacity ∧
      (grow heap b).box_array.length < (grow heap b).realloc_threshold ∧
      (∀ i, i < b.capacity → (grow heap b).box_array.boxes i = b.box_array.boxes i) ∧
      (∀ i, b.capacity ≤ i → b.box_array.boxes i = heap i →
        (grow heap b).box_array.boxes i = heap i) := by
  obtain ⟨h1, h2⟩ := hok
  unfold grow
  by_cases hge : b.box_array.length ≥ b.realloc_threshold
  · rw [if_pos hge]
    dsimp only [realloc, realloc_raise]
    refine ⟨rfl, by omega, by omega, ?_, ?_⟩
    · intro i hi
      have hm : i < min b.capacity (b.capacity + 1000) := by
        rw [Nat.min_eq_left (by omega)]; exact hi
      rw [if_pos hm]
    · intro i hi hb
      have hm : ¬ i < min b.capacity (b.capacity + 1000) := by
        rw [Nat.min_eq_left (by omega)]; omega
      rw [if_neg hm]
  · rw [if_neg hge]
    exact ⟨rfl, h1, by omega, fun _ _ => rfl, fun _ _ h => h⟩

/-- One append (growth step, then the write) from a loop-head state: it succeeds, the
loop-head relation holds again, earlier records are untouched and the new cell holds the
assigned fields over the allocator's content. -/
theorem append_spec (heap : Nat → bounding_box) (b : Buffer) (f : bounding_box → bounding_box)
    (hok : b.ok) (hfresh : ∀ i, b.box_array.length ≤ i → b.box_array.boxes i = heap i) :
    ∃ b1, writeRecord (grow heap b) f = some b1 ∧ b1.ok ∧
      (∀ i, b1.box_array.length ≤ i → b1.box_array.boxes i = heap i) ∧
      b1.box_array.length = b.box_array.length + 1 ∧
      (∀ i, i < b.box_array.length → b1.box_array.boxes i = b.box_array.boxes i) ∧
      b1.box_array.boxes b.box_array.length = f (heap b.box_array.length) := by
  obtain ⟨g1, g2, g3, g4, g5⟩ := grow_spec heap b hok
  obtain ⟨h1, h2⟩ := hok
  have hcell : ∀ i, b.box_array.length ≤ i → (grow heap b).box_array.boxes i = heap i := by
    intro i hi
    by_cases hc : i < b.capacity
    · rw [g4 i hc]; exact hfresh i hi
    · exact g5 i (by omega) (hfresh i hi)
  have hlt : (grow heap b).box_array.length < (grow heap b).capacity := by omega
  refine ⟨_, by simp only [writeRecord, hlt, if_true]; rfl, ?_, ?_, ?_, ?_, ?_⟩
  · exact ⟨g2, by simp only; omega⟩
  · intro i hi
    simp only at hi ⊢
    have : i ≠ (grow heap b).box_array.length := by omega
    simp only [this, if_false]
    exact hcell i (by omega)
  · simp only [g1]
  · intro i hi
    have : i ≠ (grow heap b).box_array.length := by omega
    simp only [this, if_false]
    exact g4 i (by omega)
  · simp only [g1, if_true]
    rw [← g1, hcell _ (by omega), g1]

/-! ## The two loops against the reference sequences -/

theorem verboseBody_empty (heap : Nat → bounding_box) (p : Position) (s : VerboseState)
    (h : p.Empty RIL_WORD = true) : verboseBody heap p s = some s := by
  simp [verboseBody, h]

theorem verboseWritten_cons_empty (c : Counters) (p : Position) (ps : List Position)
    (h : p.Empty RIL_WORD = true) : verboseWritten c (p :: ps) = verboseWritten c ps := by
  simp [verboseWritten, h]

theorem verboseWritten_cons_word (c : Counters) (p : Position) (ps : List Position)
    (h : ¬ p.Empty RIL_WORD = true) :
    verboseWritten c (p :: ps) =
      verboseCell p (advance p c) :: verboseWritten (advance p c) ps := by
  simp [verboseWritten, h]

/-- The verbose loop, started from any loop-head state, finishes; it appends exactly the
records of `verboseWritten`, in order, behind the records already present, which it leaves
as they were. -/
theorem verboseLoop_spec (heap : Nat → bounding_box) :
    ∀ (ps : List Position) (s : VerboseState), s.buf.ok →
      (∀ i, s.buf.box_array.length ≤ i → s.buf.box_array.boxes i = heap i) →
      ∃ s1, verboseLoop heap ps s = some s1 ∧ s1.buf.ok ∧
        (∀ i, s1.buf.box_array.length ≤ i → s1.buf.box_array.boxes i = heap i) ∧
        s1.buf.box_array.length = s.buf.box_array.length + (verboseWritten s.cnt ps).length ∧
        (∀ i, i < s.buf.box_array.length →
          s1.buf.box_array.boxes i = s.buf.box_array.boxes i) ∧
        (∀ j, j < (verboseWritten s.cnt ps).length →
          (verboseWritten s.cnt ps)[j]? =
            some (s1.buf.box_array.boxes (s.buf.box_array.length + j))) := by
  intro ps
  induction ps with
  | nil =>
    intro s hok hfresh
    exact ⟨s, rfl, hok, hfresh, by simp [verboseWritten], fun _ _ => rfl,
      by simp [verboseWritten]⟩
  | cons p ps ih =>
    intro s hok hfresh
    by_cases he : p.Empty RIL_WORD = true
    · obtain ⟨s1, e1, r⟩ := ih s hok hfresh
      refine ⟨s1, ?_, ?_⟩
      · simp only [verboseLoop, verboseBody_empty heap p s he]; exact e1
      · rw [verboseWritten_cons_empty _ _ _ he]; exact r
    · obtain ⟨b1, w1, ok1, fr1, len1, old1, new1⟩ :=
        append_spec heap s.buf (fun _ => verboseCell p (advance p s.cnt)) hok hfresh
      obtain ⟨s2, e2, ok2, fr2, len2, old2, new2⟩ :=
        ih { buf := b1, cnt := advance p s.cnt } ok1 fr1
      simp only at len2 old2 new2
      refine ⟨s2, ?_, ok2, fr2, ?_, ?_, ?_⟩
      · simp only [verboseLoop, verboseBody, he, if_false, w1]; exact e2
      · rw [verboseWritten_cons_word _ _ _ he, List.length_cons, len2, len1]; omega
      · intro i hi
        rw [old2 i (by omega), old1 i hi]
      · rw [verboseWritten_cons_word _ _ _ he]
        intro j hj
        cases j with
        | zero =>
          simp only [List.getElem?_cons_zero, Nat.add_zero]
          rw [old2 _ (by omega), new1]
        | succ k =>
          simp only [List.length_cons] at hj
          rw [List.getElem?_cons_succ, new2 k (by omega), len1]
          congr 2
          omega

/-- The `do … while` loop, started from any loop-head state, finishes; it appends one record
per visited position, in order, each made of the fields assigned from that position over the
allocator's content of the cell, and leaves the records already present as they were. -/
theorem doWhile_spec (heap : Nat → bounding_box) (level : PageIteratorLevel) :
    ∀ (ahead : List Position) (cur : Position) (b : Buffer), b.ok →
      (∀ i, b.box_array.length ≤ i → b.box_array.boxes i = heap i) →
      ∃ b1, doWhile heap level cur ahead b = some b1 ∧ b1.ok ∧
        (∀ i, b1.box_array.length ≤ i → b1.box_array.boxes i = heap i) ∧
        b1.box_array.length = b.box_array.length + (cur :: ahead).length ∧
        (∀ i, i < b.box_array.length → b1.box_array.boxes i = b.box_array.boxes i) ∧
        (∀ j p, (cur :: ahead)[j]? = some p →
          b1.box_array.boxes (b.box_array.length + j) =
            simpleCell level p (heap (b.box_array.length + j))) := by
  intro ahead
  induction ahead with
  | nil =>
    intro cur b hok hfresh
    obtain ⟨b1, w1, ok1, fr1, len1, old1, new1⟩ :=
      append_spec heap b (simpleCell level cur) hok hfresh
    refine ⟨b1, w1, ok1, fr1, by simp [len1], old1, ?_⟩
    intro j p hj
    cases j with
    | zero =>
      simp only [List.getElem?_cons_zero, Option.some.injEq] at hj
      subst hj
      exact new1
    | succ k => simp at hj
  | cons q qs ih =>
    intro cur b hok hfresh
    obtain ⟨b1, w1, ok1, fr1, len1, old1, new1⟩ :=
      append_spec heap b (simpleCell level cur) hok hfresh
    obtain ⟨b2, e2, ok2, fr2, len2, old2, new2⟩ := ih q b1 ok1 fr1
    refine ⟨b2, ?_, ok2, fr2, ?_, ?_, ?_⟩
    · have hw : simpleBody heap level cur b = some b1 := w1
      simp only [doWhile, hw]; exact e2
    · rw [len2, len1]; simp only [List.length_cons]; omega
    · intro i hi
      rw [old2 i (by omega), old1 i hi]
    · intro j p hj
      cases j with
      | zero =>
        simp only [List.getElem?_cons_zero, Option.some.injEq] at hj
        subst hj
        rw [Nat.add_zero, old2 _ (by omega)]
        exact new1
      | succ k =>
        rw [List.getElem?_cons_succ] at hj
        have h := new2 k p hj
        rw [len1] at h
        have e : b.box_array.length + (k + 1) = b.box_array.length + 1 + k := by omega
        rw [e]; exact h

/-! ## The two functions against the reference sequences -/

theorem records_getElem? (r : bounding_boxes) (i : Nat) (h : i < r.length) :
    r.records[i]? = some (r.boxes i) := by
  simp [bounding_boxes.records, List.getElem?_map, List.getElem?_range, h]

theorem records_length (r : bounding_boxes) : r.records.length = r.length := by
  simp [bounding_boxes.records]

/-- The verbose function returns, and the records read back are exactly the records its loop
body assembled, in order. -/
theorem GetBoundingBoxesVerbose_records (heap : Nat → bounding_box) (it : ResultIterator) :
    ∃ r, GetBoundingBoxesVerbose heap it = some r ∧
      r.records = verboseWritten startCounters it.stops := by
  obtain ⟨hok, hfresh⟩ := initBuffer_ok heap
  obtain ⟨s1, e1, _, _, len1, _, new1⟩ :=
    verboseLoop_spec heap it.stops (verboseInit heap) hok hfresh
  have hc : (verboseInit heap).cnt = startCounters := rfl
  have h0 : (verboseInit heap).buf.box_array.length = 0 := rfl
  rw [hc, h0] at len1 new1
  rw [Nat.zero_add] at len1
  refine ⟨s1.buf.box_array, by simp [GetBoundingBoxesVerbose, e1], ?_⟩
  apply List.ext_getElem?
  intro j
  by_cases hj : j < s1.buf.box_array.length
  · rw [records_getElem? _ _ hj, new1 j (by omega), Nat.zero_add]
  · rw [List.getElem?_eq_none (by rw [records_length]; omega),
      List.getElem?_eq_none (by omega)]

/-- The simple function returns; with an iterator it yields one record per visited position,
in order, cell `j` holding the fields assigned from position `j` over the allocator's content
of that cell. -/
theorem GetBoundingBoxes_cells (heap : Nat → bounding_box) (it : ResultIterator)
    (level : Int) :
    ∃ r, GetBoundingBoxes heap (some it) level = some r ∧
      r.length = it.visited.length ∧
      ∀ j p, it.visited[j]? = some p → r.boxes j = simpleCell level p (heap j) := by
  obtain ⟨hok, hfresh⟩ := initBuffer_ok heap
  have key : ∀ cur ahead, ∃ r,
      (doWhile heap level cur ahead (initBuffer heap)).map (fun b => b.box_array) = some r ∧
      r.length = (cur :: ahead).length ∧
      ∀ j p, (cur :: ahead)[j]? = some p → r.boxes j = simpleCell level p (heap j) := by
    intro cur ahead
    obtain ⟨b1, e1, _, _, len1, _, new1⟩ :=
      doWhile_spec heap level ahead cur (initBuffer heap) hok hfresh
    refine ⟨b1.box_array, by simp [e1], by rw [len1]; simp [initBuffer], ?_⟩
    intro j p hj
    have h := new1 j p hj
    simpa [initBuffer] using h
  cases hs : it.stops with
  | nil =>
    obtain ⟨r, e, l, c⟩ := key it.exhausted []
    exact ⟨r, by simp only [GetBoundingBoxes, hs]; exact e,
      by simpa [ResultIterator.visited, hs] using l,
      by simpa [ResultIterator.visited, hs] using c⟩
  | cons p ps =>
    obtain ⟨r, e, l, c⟩ := key p ps
    exact ⟨r, by simp only [GetBoundingBoxes, hs]; exact e,
      by simpa [ResultIterator.visited, hs] using l,
      by simpa [ResultIterator.visited, hs] using c⟩

/-! ## Properties of the assembled record sequence -/

theorem numbers_verboseCell (p : Position) (c : Counters) :
    (verboseCell p c).numbers = c := rfl

/-- One record per position that is not empty at word granularity, carrying that position's
word-level text, confidence and box. -/
theorem verboseWritten_payload :
    ∀ (ps : List Position) (c : Counters) (j : Nat) (p : Position),
      (nonEmptyWord ps)[j]? = some p →
      ∃ c1, (verboseWritten c ps)[j]? = some (verboseCell p c1) := by
  intro ps
  induction ps with
  | nil => intro c j p h; simp [nonEmptyWord] at h
  | cons q qs ih =>
    intro c j p h
    by_cases he : q.Empty RIL_WORD = true
    · rw [verboseWritten_cons_empty _ _ _ he]
      apply ih
      simpa [nonEmptyWord, he] using h
    · rw [verboseWritten_cons_word _ _ _ he]
      have hq : nonEmptyWord (q :: qs) = q :: nonEmptyWord qs := by
        simp [nonEmptyWord, he]
      rw [hq] at h
      cases j with
      | zero =>
        simp only [List.getElem?_cons_zero, Option.some.injEq] at h
        subst h
        exact ⟨advance q c, by simp⟩
      | succ k =>
        rw [List.getElem?_cons_succ] at h
        rw [List.getElem?_cons_succ]
        exact ih _ k p h

theorem verboseWritten_length :
    ∀ (ps : List Position) (c : Counters),
      (verboseWritten c ps).length = (nonEmptyWord ps).length := by
  intro ps
  induction ps with
  | nil => intro c; rfl
  | cons q qs ih =>
    intro c
    by_cases he : q.Empty RIL_WORD = true
    · rw [verboseWritten_cons_empty _ _ _ he, ih]
      simp [nonEmptyWord, he]
    · rw [verboseWritten_cons_word _ _ _ he, List.length_cons, ih]
      simp [nonEmptyWord, he]

/-- A relation that every counter update satisfies links the starting counters to the first
record and every record to the next. -/
theorem verboseWritten_chain (R : Counters → Counters → Prop) :
    ∀ (ps : List Position),
      (∀ p ∈ ps, ¬ p.Empty RIL_WORD = true → ∀ c, R c (advance p c)) →
      ∀ c, List.Chain R c ((verboseWritten c ps).map bounding_box.numbers) := by
  intro ps
  induction ps with
  | nil => intro _ c; simp [verboseWritten]
  | cons q qs ih =>
    intro hR c
    have hqs : ∀ p ∈ qs, ¬ p.Empty RIL_WORD = true → ∀ c, R c (advance p c) :=
      fun p hp => hR p (List.mem_cons_of_mem _ hp)
    by_cases he : q.Empty RIL_WORD = true
    · rw [verboseWritten_cons_empty _ _ _ he]
      exact ih hqs c
    · rw [verboseWritten_cons_word _ _ _ he, List.map_cons, numbers_verboseCell]
      exact List.Chain.cons (hR q (List.mem_cons_self _ _) he c) (ih hqs _)

/-- A property of the counters kept by every update, with a consequence `O` for the updated
counters, gives `O` for the numbers of every record. -/
theorem verboseWritten_forall (I O : Counters → Prop) :
    ∀ (ps : List Position),
      (∀ p ∈ ps, ¬ p.Empty RIL_WORD = true → ∀ c, I c → I (advance p c) ∧ O (advance p c)) →
      ∀ c, I c → ∀ x ∈ verboseWritten c ps, O x.numbers := by
  intro ps
  induction ps with
  | nil => intro _ c _ x hx; simp [verboseWritten] at hx
  | cons q qs ih =>
    intro hI c hc x hx
    have hqs : ∀ p ∈ qs, ¬ p.Empty RIL_WORD = true →
        ∀ c, I c → I (advance p c) ∧ O (advance p c) :=
      fun p hp => hI p (List.mem_cons_of_mem _ hp)
    by_cases he : q.Empty RIL_WORD = true
    · rw [verboseWritten_cons_empty _ _ _ he] at hx
      exact ih hqs c hc x hx
    · rw [verboseWritten_cons_word _ _ _ he] at hx
      obtain ⟨h1, h2⟩ := hI q (List.mem_cons_self _ _) he c hc
      rcases List.mem_cons.mp hx with rfl | hx
      · exact h2
      · exact ih hqs _ h1 x hx

/-- Index form of a chain: the start is related to the first element and each element to
the next. -/
theorem chain_getElem? {α : Type} (R : α → α → Prop) :
    ∀ (l : List α) (a : α), List.Chain R a l →
      (∀ x, l[0]? = some x → R a x) ∧
      ∀ i x y, l[i]? = some x → l[i + 1]? = some y → R x y := by
  intro l
  induction l with
  | nil => intro a _; simp
  | cons b t ih =>
    intro a h
    rw [List.chain_cons] at h
    obtain ⟨h0, ht⟩ := ih b h.2
    refine ⟨?_, ?_⟩
    · intro x hx
      simp only [List.getElem?_cons_zero, Option.some.injEq] at hx
      subst hx; exact h.1
    · intro i x y hx hy
      rw [List.getElem?_cons_succ] at hy
      cases i with
      | zero =>
        simp only [List.getElem?_cons_zero, Option.some.injEq] at hx
        subst hx
        exact h0 y hy
      | succ k =>
        rw [List.getElem?_cons_succ] at hx
        exact ht k x y hx hy

/-! ## The counter update -/

/-- What one counter update does to the four numbers, as a relation between the counters
before and after: the block number stays or rises by one; below an unchanged block number the
paragraph number does not fall; below unchanged block and paragraph numbers the line number
does not fall; with all three unchanged the word number rises by one. -/
theorem advance_follows (p : Position) (c : Counters) :
    c.block_num ≤ (advance p c).block_num ∧
    (advance p c).block_num ≤ c.block_num + 1 ∧
    ((advance p c).block_num = c.block_num → c.par_num ≤ (advance p c).par_num) ∧
    ((advance p c).block_num = c.block_num → (advance p c).par_num = c.par_num →
      c.line_num ≤ (advance p c).line_num) ∧
    ((advance p c).block_num = c.block_num → (advance p c).par_num = c.par_num →
      (advance p c).line_num = c.line_num → (advance p c).word_num = c.word_num + 1) := by
  unfold advance
  cases p.IsAtBeginningOf RIL_BLOCK <;> cases p.IsAtBeginningOf RIL_PARA <;>
    cases p.IsAtBeginningOf RIL_TEXTLINE <;> simp

/-- Where the iterator cascades the beginning of a block, a changed block number comes with
paragraph, line and word number 1. -/
theorem advance_new_block (p : Position) (hp : p.cascades) (c : Counters) :
    (advance p c).block_num ≠ c.block_num →
      (advance p c).par_num = 1 ∧ (advance p c).line_num = 1 ∧ (advance p c).word_num = 1 := by
  unfold Position.cascades at hp
  unfold advance
  cases hb : p.IsAtBeginningOf RIL_BLOCK
  · cases p.IsAtBeginningOf RIL_PARA <;> cases p.IsAtBeginningOf RIL_TEXTLINE <;> simp
  · obtain ⟨h1, h2⟩ := hp hb
    simp [h1, h2]

/-- No counter is ever negative, and the word number of an updated state is at least 1. -/
theorem advance_nonneg (p : Position) (c : Counters)
    (hc : 0 ≤ c.block_num ∧ 0 ≤ c.par_num ∧ 0 ≤ c.line_num ∧ 0 ≤ c.word_num) :
    0 ≤ (advance p c).block_num ∧ 0 ≤ (advance p c).par_num ∧
      0 ≤ (advance p c).line_num ∧ 1 ≤ (advance p c).word_num := by
  unfold advance
  cases p.IsAtBeginningOf RIL_BLOCK <;> cases p.IsAtBeginningOf RIL_PARA <;>
    cases p.IsAtBeginningOf RIL_TEXTLINE <;> simp <;> omega

/-- With nested begin flags, counters that are all at least 1 stay so. -/
theorem advance_positive (p : Position) (hp : p.nested) (c : Counters)
    (hc : 1 ≤ c.block_num ∧ 1 ≤ c.par_num ∧ 1 ≤ c.line_num ∧ 1 ≤ c.word_num) :
    1 ≤ (advance p c).block_num ∧ 1 ≤ (advance p c).par_num ∧
      1 ≤ (advance p c).line_num ∧ 1 ≤ (advance p c).word_num := by
  obtain ⟨h1, h2⟩ := hp
  unfold Position.cascades at h1
  unfold advance
  cases hb : p.IsAtBeginningOf RIL_BLOCK
  · cases hq : p.IsAtBeginningOf RIL_PARA
    · cases p.IsAtBeginningOf RIL_TEXTLINE <;> simp <;> omega
    · have := h2 hq
      simp [this]; omega
  · obtain ⟨h3, h4⟩ := h1 hb
    simp [h3, h4]; omega

/-- With nested begin flags, a position that begins a block sets all four numbers to at
least 1, from counters that are not negative. -/
theorem advance_block_start (p : Position) (hp : p.nested)
    (hb : p.IsAtBeginningOf RIL_BLOCK = true) (c : Counters) (hc : 0 ≤ c.block_num) :
    1 ≤ (advance p c).block_num ∧ 1 ≤ (advance p c).par_num ∧
      1 ≤ (advance p c).line_num ∧ 1 ≤ (advance p c).word_num := by
  obtain ⟨h1, _⟩ := hp
  obtain ⟨h3, h4⟩ := h1 hb
  unfold advance
  simp [hb, h3, h4]; omega

/-! ## From the record sequence to the returned buffer -/

theorem numbers_getElem? (r : bounding_boxes) (i : Nat) (h : i < r.length) :
    (r.records.map bounding_box.numbers)[i]? = some (r.boxes i).numbers := by
  rw [List.getElem?_map, records_getElem? r i h]; rfl

/-- A relation every counter update satisfies holds between the starting counters and record
0 and between every two consecutive records of the returned buffer. -/
theorem verbose_numbers_chain (R : Counters → Counters → Prop) (heap : Nat → bounding_box)
    (it : ResultIterator)
    (hR : ∀ p ∈ it.stops, ¬ p.Empty RIL_WORD = true → ∀ c, R c (advance p c)) :
    ∃ r, GetBoundingBoxesVerbose heap it = some r ∧
      (0 < r.length → R startCounters (r.boxes 0).numbers) ∧
      ∀ i, i + 1 < r.length → R (r.boxes i).numbers (r.boxes (i + 1)).numbers := by
  obtain ⟨r, e, hrec⟩ := GetBoundingBoxesVerbose_records heap it
  have hch := verboseWritten_chain R it.stops hR startCounters
  rw [← hrec] at hch
  obtain ⟨h0, h1⟩ := chain_getElem? R _ _ hch
  refine ⟨r, e, ?_, ?_⟩
  · intro hpos
    exact h0 _ (numbers_getElem? r 0 hpos)
  · intro i hi
    exact h1 i _ _ (numbers_getElem? r i (by omega)) (numbers_getElem? r (i + 1) hi)

/-- Every record of the returned buffer is one of the assembled records. -/
theorem verbose_boxes_mem (heap : Nat → bounding_box) (it : ResultIterator) :
    ∃ r, GetBoundingBoxesVerbose heap it = some r ∧
      r.length = (nonEmptyWord it.stops).length ∧
      ∀ i, i < r.length → r.boxes i ∈ verboseWritten startCounters it.stops := by
  obtain ⟨r, e, hrec⟩ := GetBoundingBoxesVerbose_records heap it
  refine ⟨r, e, ?_, ?_⟩
  · rw [← records_length, hrec, verboseWritten_length]
  · intro i hi
    rw [← hrec]
    exact List.getElem?_mem (records_getElem? r i hi)

/-- With nested begin flags and a first non-empty position that begins a block, every
assembled record has all four numbers at least 1. -/
theorem verboseWritten_positive :
    ∀ (ps : List Position), (∀ p ∈ ps, p.nested) →
      (∀ p, (nonEmptyWord ps).head? = some p → p.IsAtBeginningOf RIL_BLOCK = true) →
      ∀ c, 0 ≤ c.block_num →
      ∀ x ∈ verboseWritten c ps,
        1 ≤ x.block_num ∧ 1 ≤ x.par_num ∧ 1 ≤ x.line_num ∧ 1 ≤ x.word_num := by
  intro ps
  induction ps with
  | nil => intro _ _ c _ x hx; simp [verboseWritten] at hx
  | cons q qs ih =>
    intro hn hf c hc x hx
    have hqs : ∀ p ∈ qs, p.nested := fun p hp => hn p (List.mem_cons_of_mem _ hp)
    by_cases he : q.Empty RIL_WORD = true
    · rw [verboseWritten_cons_empty _ _ _ he] at hx
      refine ih hqs ?_ c hc x hx
      intro p hp
      apply hf
      simpa [nonEmptyWord, he] using hp
    · rw [verboseWritten_cons_word _ _ _ he] at hx
      have hq := hn q (List.mem_cons_self _ _)
      have hb : q.IsAtBeginningOf RIL_BLOCK = true := by
        apply hf
        simp [nonEmptyWord, he]
      have h1 := advance_block_start q hq hb c hc
      rcases List.mem_cons.mp hx with rfl | hx
      · exact h1
      · exact verboseWritten_forall
          (fun c => 1 ≤ c.block_num ∧ 1 ≤ c.par_num ∧ 1 ≤ c.line_num ∧ 1 ≤ c.word_num)
          (fun c => 1 ≤ c.block_num ∧ 1 ≤ c.par_num ∧ 1 ≤ c.line_num ∧ 1 ≤ c.word_num)
          qs (fun p hp _ c hc => ⟨advance_positive p (hqs p hp) c hc,
            advance_positive p (hqs p hp) c hc⟩) _ h1 x hx

/-- Whatever the begin flags, no record has a negative number and every record has a word
number of at least 1. -/
theorem verbose_numbers_nonneg (heap : Nat → bounding_box) (it : ResultIterator) :
    ∃ r, GetBoundingBoxesVerbose heap it = some r ∧
      ∀ i, i < r.length →
        0 ≤ (r.boxes i).block_num ∧ 0 ≤ (r.boxes i).par_num ∧
          0 ≤ (r.boxes i).line_num ∧ 1 ≤ (r.boxes i).word_num := by
  obtain ⟨r, e, _, hmem⟩ := verbose_boxes_mem heap it
  refine ⟨r, e, fun i hi => ?_⟩
  exact verboseWritten_forall
    (fun c => 0 ≤ c.block_num ∧ 0 ≤ c.par_num ∧ 0 ≤ c.line_num ∧ 0 ≤ c.word_num)
    (fun c => 0 ≤ c.block_num ∧ 0 ≤ c.par_num ∧ 0 ≤ c.line_num ∧ 1 ≤ c.word_num)
    it.stops
    (fun p _ _ c hc => ⟨by
      have h := advance_nonneg p c hc
      exact ⟨h.1, h.2.1, h.2.2.1, by omega⟩, advance_nonneg p c hc⟩)
    startCounters (by simp [startCounters]) (r.boxes i) (hmem i hi)

/-- A run of the verbose loop over `pre ++ post` passes through the loop head reached after
`pre` and goes on from there. -/
theorem verboseLoop_append (heap : Nat → bounding_box) :
    ∀ (pre post : List Position) (s : VerboseState),
      verboseLoop heap (pre ++ post) s =
        (verboseLoop heap pre s).bind (verboseLoop heap post) := by
  intro pre
  induction pre with
  | nil => intro post s; rfl
  | cons p ps ih =>
    intro post s
    simp only [List.cons_append, verboseLoop]
    cases verboseBody heap p s with
    | none => rfl
    | some s1 => exact ih post s1

/-- A run of the `do … while` loop passes through the loop head reached after the positions
before `q` and goes on from there with `q`. -/
theorem doWhile_append (heap : Nat → bounding_box) (level : PageIteratorLevel) :
    ∀ (ahead : List Position) (cur q : Position) (rest : List Position) (b : Buffer),
      doWhile heap level cur (ahead ++ q :: rest) b =
        (doWhile heap level cur ahead b).bind (doWhile heap level q rest) := by
  intro ahead
  induction ahead with
  | nil =>
    intro cur q rest b
    simp only [List.nil_append, doWhile]
    cases simpleBody heap level cur b <;> rfl
  | cons a as ih =>
    intro cur q rest b
    simp only [List.cons_append, doWhile]
    cases simpleBody heap level cur b with
    | none => rfl
    | some b1 => exact ih a q rest b1

/-! ## Results -/

/-- C1 (as amended): when the iterator cascades the beginning of a block (every position it
reports as beginning a block it also reports as beginning a paragraph and a line), every record
of `GetBoundingBoxesVerbose` whose block number differs from the one before it — for record 0,
from the initial 0 — has paragraph, line and word number 1. -/
theorem C1_new_block_starts_at_one (heap : Nat → bounding_box) (it : ResultIterator)
    (hcascade : ∀ p ∈ it.stops, p.cascades) :
    ∃ r, GetBoundingBoxesVerbose heap it = some r ∧
      (0 < r.length → (r.boxes 0).block_num ≠ 0 →
        (r.boxes 0).par_num = 1 ∧ (r.boxes 0).line_num = 1 ∧ (r.boxes 0).word_num = 1) ∧
      ∀ i, i + 1 < r.length → (r.boxes (i + 1)).block_num ≠ (r.boxes i).block_num →
        (r.boxes (i + 1)).par_num = 1 ∧ (r.boxes (i + 1)).line_num = 1 ∧
          (r.boxes (i + 1)).word_num = 1 := by
  obtain ⟨r, e, h0, h1⟩ := verbose_numbers_chain
    (fun a b => b.block_num ≠ a.block_num → b.par_num = 1 ∧ b.line_num = 1 ∧ b.word_num = 1)
    heap it (fun p hp _ c => advance_new_block p (hcascade p hp) c)
  exact ⟨r, e, fun hpos => h0 hpos, fun i hi => h1 i hi⟩

/-- C1, an instance: two words of one block followed by the first word of a second block,
with cascading flags. -/
theorem C1_new_block_starts_at_one_witness :
    ∃ r, GetBoundingBoxesVerbose zeroHeap
        ⟨[wordAt true true true "a", wordAt false false false "b",
          wordAt true true true "c"], pastEnd⟩ = some r ∧
      (0 < r.length → (r.boxes 0).block_num ≠ 0 →
        (r.boxes 0).par_num = 1 ∧ (r.boxes 0).line_num = 1 ∧ (r.boxes 0).word_num = 1) ∧
      ∀ i, i + 1 < r.length → (r.boxes (i + 1)).block_num ≠ (r.boxes i).block_num →
        (r.boxes (i + 1)).par_num = 1 ∧ (r.boxes (i + 1)).line_num = 1 ∧
          (r.boxes (i + 1)).word_num = 1 :=
  C1_new_block_starts_at_one zeroHeap _ (by
    intro p hp
    simp only [List.mem_cons, List.mem_singleton, List.not_mem_nil, or_false] at hp
    rcases hp with rfl | rfl | rfl <;> simp [Position.cascades, wordAt])

/-- C1 as stated fails: a position reported as beginning a block but not a paragraph or a
line yields a record with the new block number 1 and paragraph and line number 0; and a first
record whose position is not reported as beginning a block has block number 0 and paragraph
number 0. -/
theorem C1_counterexample :
    (GetBoundingBoxesVerbose zeroHeap ⟨[wordAt true false false "a"], pastEnd⟩).map
        (fun r => (r.length, (r.boxes 0).numbers)) =
      some (1, { block_num := 1, par_num := 0, line_num := 0, word_num := 1 }) ∧
    (GetBoundingBoxesVerbose zeroHeap ⟨[wordAt false false false "a"], pastEnd⟩).map
        (fun r => (r.length, (r.boxes 0).numbers)) =
      some (1, { block_num := 0, par_num := 0, line_num := 0, word_num := 1 }) := by
  decide

/-- C2: in the buffer returned by `GetBoundingBoxesVerbose`, from each record to the next the
block number does not fall and rises by at most 1; with equal block numbers the paragraph
number does not fall; with equal block and paragraph numbers the line number does not fall;
with all three equal the word number is the previous one plus 1. -/
theorem C2_consecutive_records (heap : Nat → bounding_box) (it : ResultIterator) :
    ∃ r, GetBoundingBoxesVerbose heap it = some r ∧
      ∀ i, i + 1 < r.length →
        (r.boxes i).block_num ≤ (r.boxes (i + 1)).block_num ∧
        (r.boxes (i + 1)).block_num ≤ (r.boxes i).block_num + 1 ∧
        ((r.boxes (i + 1)).block_num = (r.boxes i).block_num →
          (r.boxes i).par_num ≤ (r.boxes (i + 1)).par_num) ∧
        ((r.boxes (i + 1)).block_num = (r.boxes i).block_num →
          (r.boxes (i + 1)).par_num = (r.boxes i).par_num →
          (r.boxes i).line_num ≤ (r.boxes (i + 1)).line_num) ∧
        ((r.boxes (i + 1)).block_num = (r.boxes i).block_num →
          (r.boxes (i + 1)).par_num = (r.boxes i).par_num →
          (r.boxes (i + 1)).line_num = (r.boxes i).line_num →
          (r.boxes (i + 1)).word_num = (r.boxes i).word_num + 1) := by
  obtain ⟨r, e, _, h1⟩ := verbose_numbers_chain
    (fun a b => a.block_num ≤ b.block_num ∧ b.block_num ≤ a.block_num + 1 ∧
      (b.block_num = a.block_num → a.par_num ≤ b.par_num) ∧
      (b.block_num = a.block_num → b.par_num = a.par_num → a.line_num ≤ b.line_num) ∧
      (b.block_num = a.block_num → b.par_num = a.par_num → b.line_num = a.line_num →
        b.word_num = a.word_num + 1))
    heap it (fun p _ _ c => advance_follows p c)
  exact ⟨r, e, fun i hi => h1 i hi⟩

/-- C3: `GetBoundingBoxesVerbose` returns one record per position that is not empty at word
granularity, in traversal order, record `i` carrying the word-level text, confidence and box
of the `i`-th such position; at a position that is empty at word granularity the loop body
changes nothing (no record, no counter), and the loop ends when no position is left. -/
theorem C3_one_record_per_word (heap : Nat → bounding_box) (it : ResultIterator) :
    ∃ r, GetBoundingBoxesVerbose heap it = some r ∧
      r.length = (nonEmptyWord it.stops).length ∧
      (∀ i p, (nonEmptyWord it.stops)[i]? = some p →
        (r.boxes i).word = p.GetUTF8Text RIL_WORD ∧
        (r.boxes i).confidence = p.Confidence RIL_WORD ∧
        ((r.boxes i).x1, (r.boxes i).y1, (r.boxes i).x2, (r.boxes i).y2) =
          p.BoundingBox RIL_WORD) ∧
      (∀ (p : Position) (s : VerboseState), p.Empty RIL_WORD = true →
        verboseBody heap p s = some s) ∧
      (∀ s : VerboseState, verboseLoop heap [] s = some s) := by
  obtain ⟨r, e, hrec⟩ := GetBoundingBoxesVerbose_records heap it
  have hlen : r.length = (nonEmptyWord it.stops).length := by
    rw [← records_length, hrec, verboseWritten_length]
  refine ⟨r, e, hlen, ?_, fun p s h => verboseBody_empty heap p s h, fun _ => rfl⟩
  intro i p hp
  obtain ⟨c1, hc1⟩ := verboseWritten_payload it.stops startCounters i p hp
  have hi : i < r.length := by
    rw [hlen]
    exact (List.getElem?_eq_some.mp hp).1
  rw [← hrec, records_getElem? r i hi, Option.some.injEq] at hc1
  rw [hc1]
  exact ⟨rfl, rfl, rfl⟩

/-- With an iterator that has at least one position, `GetBoundingBoxes` at word granularity
returns as many records as the iterator visits positions: its loop has no `Empty` test. -/
theorem simple_one_record_per_position (heap : Nat → bounding_box) (it : ResultIterator)
    (hne : it.stops ≠ []) :
    ∃ r, GetBoundingBoxes heap (some it) RIL_WORD = some r ∧
      r.length = it.stops.length := by
  obtain ⟨r, e, hl, _⟩ := GetBoundingBoxes_cells heap it RIL_WORD
  refine ⟨r, e, ?_⟩
  rw [hl]
  cases hs : it.stops with
  | nil => exact absurd hs hne
  | cons p ps => simp [ResultIterator.visited, hs]

/-- C4, the code at an iterator that visits an image block (empty at word granularity) and
then one word: `GetBoundingBoxes` at word granularity returns 2 records, the first one read
at the empty position (no text, confidence 0), while 1 position is not empty at word
granularity; `GetBoundingBoxesVerbose` skips the empty position and returns 1 record. -/
theorem C4_empty_position_recorded :
    (GetBoundingBoxes zeroHeap
        (some ⟨[imageBlock, wordAt true true true "a"], pastEnd⟩) RIL_WORD).map
        (fun r => (r.length, (r.boxes 0).word, (r.boxes 0).confidence, (r.boxes 1).word)) =
      some (2, none, 0, some "a") ∧
    (nonEmptyWord [imageBlock, wordAt true true true "a"]).length = 1 ∧
    (GetBoundingBoxesVerbose zeroHeap
        ⟨[imageBlock, wordAt true true true "a"], pastEnd⟩).map
        (fun r => (r.length, (r.boxes 0).word)) = some (1, some "a") := by
  decide

/-- C5, the code at an iterator that is used up from the start: `GetBoundingBoxesVerbose`
returns length 0, and `GetBoundingBoxes` returns, at every level, length 1 — the `do … while`
body runs once before `Next` is asked. -/
theorem C5_empty_iterator (heap : Nat → bounding_box) (e : Position) (level : Int) :
    (∃ r, GetBoundingBoxesVerbose heap ⟨[], e⟩ = some r ∧ r.length = 0) ∧
    (∃ r, GetBoundingBoxes heap (some ⟨[], e⟩) level = some r ∧ r.length = 1 ∧
      r.boxes 0 = simpleCell level e (heap 0)) := by
  refine ⟨⟨_, rfl, rfl⟩, ?_⟩
  obtain ⟨r, h, hl, hc⟩ := GetBoundingBoxes_cells heap ⟨[], e⟩ level
  exact ⟨r, h, by simpa [ResultIterator.visited] using hl,
    hc 0 e (by simp [ResultIterator.visited])⟩

/-- C6: through any number of growth steps, both functions return a buffer whose length is the
number of records appended and whose cell `i` is the `i`-th record written: for the verbose
loop the record assembled at the `i`-th non-empty position, for the simple loop the fields
assigned at the `i`-th visited position (over the cell's allocated content). -/
theorem C6_growth_preserves_records (heap : Nat → bounding_box) (it : ResultIterator)
    (level : Int) :
    (∃ r, GetBoundingBoxesVerbose heap it = some r ∧
      r.length = (verboseWritten startCounters it.stops).length ∧
      r.length = (nonEmptyWord it.stops).length ∧
      ∀ i x, (verboseWritten startCounters it.stops)[i]? = some x → r.boxes i = x) ∧
    (∃ r, GetBoundingBoxes heap (some it) level = some r ∧
      r.length = it.visited.length ∧
      ∀ i p, it.visited[i]? = some p → r.boxes i = simpleCell level p (heap i)) := by
  refine ⟨?_, GetBoundingBoxes_cells heap it level⟩
  obtain ⟨r, e, hrec⟩ := GetBoundingBoxesVerbose_records heap it
  have hl : r.length = (verboseWritten startCounters it.stops).length := by
    rw [← records_length, hrec]
  refine ⟨r, e, hl, by rw [hl, verboseWritten_length], ?_⟩
  intro i x hx
  have hi : i < r.length := by
    rw [hl]
    exact (List.getElem?_eq_some.mp hx).1
  rw [← hrec, records_getElem? r i hi, Option.some.injEq] at hx
  exact hx

/-- C7: both loops start from capacity 1000 and threshold 900; at every loop head (the state
reached after any positions `pre`, from which the run over `pre ++ post` goes on) the threshold
is the capacity minus 100 and the length is at most the threshold, hence at most the
capacity; the growth step then leaves the write index strictly below the capacity, and no run
ever stores outside the buffer (the loops return `some`). -/
theorem C7_buffer_bounds (heap : Nat → bounding_box) (level : Int) :
    ((initBuffer heap).capacity = 1000 ∧ (initBuffer heap).realloc_threshold = 900 ∧
      (verboseInit heap).buf = initBuffer heap) ∧
    (∀ pre post : List Position, ∃ s,
      verboseLoop heap pre (verboseInit heap) = some s ∧
      verboseLoop heap (pre ++ post) (verboseInit heap) = verboseLoop heap post s ∧
      (∃ s2, verboseLoop heap post s = some s2) ∧
      s.buf.realloc_threshold + 100 = s.buf.capacity ∧
      s.buf.box_array.length ≤ s.buf.realloc_threshold ∧
      s.buf.box_array.length ≤ s.buf.capacity ∧
      (grow heap s.buf).box_array.length < (grow heap s.buf).capacity) ∧
    (∀ (cur : Position) (ahead : List Position) (q : Position) (rest : List Position), ∃ b,
      doWhile heap level cur ahead (initBuffer heap) = some b ∧
      doWhile heap level cur (ahead ++ q :: rest) (initBuffer heap) =
        doWhile heap level q rest b ∧
      (∃ b2, doWhile heap level q rest b = some b2) ∧
      b.realloc_threshold + 100 = b.capacity ∧
      b.box_array.length ≤ b.realloc_threshold ∧
      b.box_array.length ≤ b.capacity ∧
      (grow heap b).box_array.length < (grow heap b).capacity) := by
  obtain ⟨hok, hfresh⟩ := initBuffer_ok heap
  refine ⟨⟨rfl, rfl, rfl⟩, ?_, ?_⟩
  · intro pre post
    obtain ⟨s, e, ok, fr, _⟩ := verboseLoop_spec heap pre (verboseInit heap) hok hfresh
    obtain ⟨s2, e2, _⟩ := verboseLoop_spec heap post s ok fr
    obtain ⟨g1, g2, g3, _⟩ := grow_spec heap s.buf ok
    refine ⟨s, e, ?_, ⟨s2, e2⟩, ok.1, ok.2, ?_, ?_⟩
    · rw [verboseLoop_append, e]; rfl
    · have := ok.1; have := ok.2; omega
    · omega
  · intro cur ahead q rest
    obtain ⟨b, e, ok, fr, _⟩ := doWhile_spec heap level ahead cur (initBuffer heap) hok hfresh
    obtain ⟨b2, e2, _⟩ := doWhile_spec heap level rest q b ok fr
    obtain ⟨g1, g2, g3, _⟩ := grow_spec heap b ok
    refine ⟨b, e, ?_, ⟨b2, e2⟩, ok.1, ok.2, ?_, ?_⟩
    · rw [doWhile_append, e]; rfl
    · have := ok.1; have := ok.2; omega
    · omega

/-- C8 (as amended): when the begin flags are nested (block begins imply paragraph and line
begins, paragraph begins imply line begins) and the first position that is not empty at word
granularity is reported as beginning a block, every record of `GetBoundingBoxesVerbose` has
block, paragraph, line and word number at least 1. -/
theorem C8_numbers_at_least_one (heap : Nat → bounding_box) (it : ResultIterator)
    (hnest : ∀ p ∈ it.stops, p.nested)
    (hfirst : ∀ p, (nonEmptyWord it.stops).head? = some p →
      p.IsAtBeginningOf RIL_BLOCK = true) :
    ∃ r, GetBoundingBoxesVerbose heap it = some r ∧
      ∀ i, i < r.length →
        1 ≤ (r.boxes i).block_num ∧ 1 ≤ (r.boxes i).par_num ∧
          1 ≤ (r.boxes i).line_num ∧ 1 ≤ (r.boxes i).word_num := by
  obtain ⟨r, e, _, hmem⟩ := verbose_boxes_mem heap it
  exact ⟨r, e, fun i hi =>
    verboseWritten_positive it.stops hnest hfirst startCounters (by simp [startCounters])
      (r.boxes i) (hmem i hi)⟩

/-- C8, an instance: an image block, then the first word of a block, then a word that begins
a line only. -/
theorem C8_numbers_at_least_one_witness :
    ∃ r, GetBoundingBoxesVerbose zeroHeap
        ⟨[imageBlock, wordAt true true true "a", wordAt false false true "b"], pastEnd⟩ =
          some r ∧
      ∀ i, i < r.length →
        1 ≤ (r.boxes i).block_num ∧ 1 ≤ (r.boxes i).par_num ∧
          1 ≤ (r.boxes i).line_num ∧ 1 ≤ (r.boxes i).word_num :=
  C8_numbers_at_least_one zeroHeap
    ⟨[imageBlock, wordAt true true true "a", wordAt false false true "b"], pastEnd⟩
    (by
      intro p hp
      simp only [List.mem_cons, List.mem_singleton, List.not_mem_nil, or_false] at hp
      rcases hp with rfl | rfl | rfl <;>
        simp [Position.nested, Position.cascades, wordAt, imageBlock])
    (by
      intro p hp
      have h : nonEmptyWord [imageBlock, wordAt true true true "a",
          wordAt false false true "b"] =
          [wordAt true true true "a", wordAt false false true "b"] := by
        simp [nonEmptyWord, imageBlock, wordAt]
      rw [h] at hp
      simp only [List.head?_cons, Option.some.injEq] at hp
      subst hp
      rfl)

/-- C8 as stated fails: the first position of a block is empty at word granularity and is
skipped, the next position is not reported as the beginning of anything; the one record
returned has block, paragraph and line number 0. -/
theorem C8_counterexample :
    (GetBoundingBoxesVerbose zeroHeap
        ⟨[imageBlock, wordAt false false false "b"], pastEnd⟩).map
        (fun r => (r.length, (r.boxes 0).numbers)) =
      some (1, { block_num := 0, par_num := 0, line_num := 0, word_num := 1 }) := by
  decide

/-- C9 (as amended): `GetBoundingBoxes` never assigns the four number fields: in the record
of every position the iterator stops at they are what the allocated storage held in that
cell, while text, confidence and the four coordinates are those of the position at the
requested level. -/
theorem C9_simple_record_fields (heap : Nat → bounding_box) (it : ResultIterator)
    (level : Int) :
    ∃ r, GetBoundingBoxes heap (some it) level = some r ∧
      ∀ i p, it.stops[i]? = some p →
        i < r.length ∧
        (r.boxes i).block_num = (heap i).block_num ∧
        (r.boxes i).par_num = (heap i).par_num ∧
        (r.boxes i).line_num = (heap i).line_num ∧
        (r.boxes i).word_num = (heap i).word_num ∧
        (r.boxes i).word = p.GetUTF8Text level ∧
        (r.boxes i).confidence = p.Confidence level ∧
        ((r.boxes i).x1, (r.boxes i).y1, (r.boxes i).x2, (r.boxes i).y2) =
          p.BoundingBox level := by
  obtain ⟨r, e, hl, hc⟩ := GetBoundingBoxes_cells heap it level
  refine ⟨r, e, ?_⟩
  intro i p hp
  have hv : it.visited[i]? = some p := by
    cases hs : it.stops with
    | nil => rw [hs] at hp; simp at hp
    | cons q qs => rw [hs] at hp; simpa [ResultIterator.visited, hs] using hp
  have hi : i < r.length := by
    rw [hl]
    exact (List.getElem?_eq_some.mp hv).1
  rw [hc i p hv]
  exact ⟨hi, rfl, rfl, rfl, rfl, rfl, rfl, rfl⟩

/-- C9 as stated fails: on recycled storage whose cells still hold numbers, the two records
`GetBoundingBoxes` returns for two words carry different values in their number fields (5 and
6), so no one fixed value is set. -/
theorem C9_counterexample :
    (GetBoundingBoxes usedHeap
        (some ⟨[wordAt true true true "a", wordAt false false false "b"], pastEnd⟩)
        RIL_WORD).map
        (fun r => (r.length, (r.boxes 0).numbers, (r.boxes 1).numbers)) =
      some (2, { block_num := 5, par_num := 5, line_num := 5, word_num := 5 },
        { block_num := 6, par_num := 6, line_num := 6, word_num := 6 }) := by
  decide

/-- C10: after `SetPixImage` the session's source resolution is 70 when the image's
(vertical) resolution is below 70 and the image's resolution otherwise, so it is never below
70, whatever the image's horizontal resolution; 50 becomes 70 and 70 stays 70. -/
theorem C10_minimum_resolution (a : TessBaseAPI) (pix : Pix) :
    (SetPixImage a pix).GetSourceYResolution = (if pix.yres < 70 then 70 else pix.yres) ∧
    70 ≤ (SetPixImage a pix).GetSourceYResolution ∧
    (SetPixImage a pix).image = some pix ∧
    (SetPixImage a { xres := pix.xres, yres := 50 }).GetSourceYResolution = 70 ∧
    (SetPixImage a { xres := pix.xres, yres := 70 }).GetSourceYResolution = 70 := by
  refine ⟨?_, ?_, ?_, ?_, ?_⟩
  · unfold SetPixImage TessBaseAPI.GetSourceYResolution TessBaseAPI.SetSourceResolution
      TessBaseAPI.SetImage
    by_cases h : pix.yres < 70 <;> simp [h]
  · unfold SetPixImage TessBaseAPI.GetSourceYResolution TessBaseAPI.SetSourceResolution
      TessBaseAPI.SetImage
    by_cases h : pix.yres < 70
    · simp [h]
    · simp [h]; omega
  · unfold SetPixImage TessBaseAPI.GetSourceYResolution TessBaseAPI.SetSourceResolution
      TessBaseAPI.SetImage
    by_cases h : pix.yres < 70 <;> simp [h]
  · simp [SetPixImage, TessBaseAPI.GetSourceYResolution, TessBaseAPI.SetSourceResolution,
      TessBaseAPI.SetImage]
  · simp [SetPixImage, TessBaseAPI.GetSourceYResolution, TessBaseAPI.SetSourceResolution,
      TessBaseAPI.SetImage]

end Tessbridge
